import Mathlib

/-!
Shallow embedding of the byte/section/string decoding layer of the golnk
repository (file bytes.go, package lnk), together with theorems settling
the specification claims about it.

Modelling conventions:
* a Go byte slice / stream is a Lean `List Nat` whose elements are byte
  values (< 256 for any list that corresponds to a real Go input);
* Go machine integers are `Nat` with explicit reductions modulo `2 ^ w`
  at the points where the Go code performs fixed-width arithmetic;
* the Go conversion `int(u)` of a `uint64` to a (64-bit) `int` is modelled
  by `intOfUInt64`, which wraps values at `2 ^ 63`;
* a Go function that can panic is modelled as returning an `Option`
  (`none` = panic); a Go function returning `(value, error)` is modelled
  as returning an `Except`;
* a Go function that consumes bytes from an `io.Reader` is modelled as a
  function from the list of remaining stream bytes that also returns the
  list of bytes left unconsumed afterwards.
-/

namespace Golnk

/-- Little-endian value of a byte list: `leNat [b0, b1, ...] = b0 + 256*b1 + ...`.
This is the arithmetic meaning shared by `binary.LittleEndian.Uint16/32/64`. -/
def leNat : List Nat → Nat
  | [] => 0
  | b :: bs => b + 256 * leNat bs

/-- Little-endian byte encoding of `u` on `w` bytes, the result of Go
`binary.Write(buf, binary.LittleEndian, u)` for a `w`-byte unsigned integer. -/
def leBytes : Nat → Nat → List Nat
  | 0, _ => []
  | w + 1, u => u % 256 :: leBytes w (u / 256)

/-- Model of `uint16Byte` (bytes.go): little-endian bytes of a `uint16`. -/
def uint16Byte (u : Nat) : List Nat := leBytes 2 u

/-- Model of `uint32Byte` (bytes.go): little-endian bytes of a `uint32`. -/
def uint32Byte (u : Nat) : List Nat := leBytes 4 u

/-- Model of `uint64Byte` (bytes.go): little-endian bytes of a `uint64`. -/
def uint64Byte (u : Nat) : List Nat := leBytes 8 u

/-- Model of `uint16Little` (bytes.go): panics (`none`) when the buffer is
shorter than two bytes, otherwise decodes `b[0] | b[1]<<8`. -/
def uint16Little (b : List Nat) : Option Nat :=
  if b.length < 2 then none else some (leNat (b.take 2))

/-- Model of `uint32Little` (bytes.go). -/
def uint32Little (b : List Nat) : Option Nat :=
  if b.length < 4 then none else some (leNat (b.take 4))

/-- Model of `uint64Little` (bytes.go). -/
def uint64Little (b : List Nat) : Option Nat :=
  if b.length < 8 then none else some (leNat (b.take 8))

/-- Go conversion `int(u)` of a `uint64` value to a 64-bit signed `int`. -/
def intOfUInt64 (u : Nat) : Int :=
  if u < 2 ^ 63 then (u : Int) else (u : Int) - 2 ^ 64

/-- Model of `byteMaskuint16` (bytes.go).  The guard in the source is
`n < 0 || n > 2` (panic, modelled as `none`); otherwise the source computes
`mask := uint16(0xFF) << uint16(n*8)` (a 16-bit shift, hence the reduction
modulo `2 ^ 16`) and returns `(b & mask) >> uint16(n*8)`. -/
def byteMaskuint16 (b : Nat) (n : Int) : Option Nat :=
  if n < 0 ∨ 2 < n then none
  else
    some ((b &&& ((0xFF <<< (n.toNat * 8)) % 2 ^ 16)) >>> (n.toNat * 8))

/-- Go slice expression `b[lo:hi]` on a byte slice: panics (`none`) unless
`0 ≤ lo ≤ hi ≤ len b`, otherwise yields the elements from `lo` (inclusive)
to `hi` (exclusive). -/
def goSlice (b : List Nat) (lo hi : Int) : Option (List Nat) :=
  if 0 ≤ lo ∧ lo ≤ hi ∧ hi ≤ (b.length : Int) then
    some ((b.drop lo.toNat).take (hi - lo).toNat)
  else none

/-- Model of `ReadBytes` (bytes.go): the source checks `offset >= len(b)`,
then `offset+num >= len(b)` (returning `b[offset:]` with its length), and
otherwise returns `b[offset : offset+num]` with `num`.  The slice
expressions panic (`none`) on negative bounds. -/
def ReadBytes (b : List Nat) (offset num : Int) : Option (List Nat × Int) :=
  if (b.length : Int) ≤ offset then some ([], 0)
  else if (b.length : Int) ≤ offset + num then
    (goSlice b offset (b.length : Int)).map fun s => (s, (s.length : Int))
  else
    (goSlice b offset (offset + num)).map fun s => (s, num)

/-- Result of a successful `readSection` call (bytes.go): the raw bytes
(`data`, size prefix included), the contents of the fresh `bytes.NewReader`
scoped to the payload (`nr`), and the declared size returned as a Go `int`
(`size`). -/
structure SectionRes where
  data : List Nat
  nr : List Nat
  size : Int
  deriving Repr, DecidableEq

/-- The error values produced by `readSection` via `fmt.Errorf`; each
constructor carries exactly the integers interpolated into the message. -/
inductive SecErr where
  /-- message: read size `sSize` bytes - `err` -/
  | readSize (sSize : Nat)
  /-- message: invalid sSize - got `sSize` -/
  | invalidSSize (sSize : Nat)
  /-- message: invalid computed size got `got`; expected a size < `expected` -/
  | invalidComputedSize (got expected : Nat)
  /-- message: read section `n` bytes - `err` -/
  | readSectionBytes (n : Nat)
  deriving Repr, DecidableEq

/-- Model of `readSection` (bytes.go).  `input` is the remaining byte stream
of the `io.Reader`; the second component of the result is the stream left
unconsumed afterwards (Go `binary.Read` consumes every byte it could obtain
even when it fails short).  The size prefix of width `sSize ∈ {2,4,8}` is
decoded little-endian; `data` is re-encoded from the decoded value by
`uint16Byte`/`uint32Byte`/`uint64Byte` exactly as in the source; the
computed payload size is the `uint64` subtraction `sectionSize - sSize`
(hence the reduction modulo `2 ^ 64`); the returned size integer is the Go
conversion `int(sectionSize)`. -/
def readSection (input : List Nat) (sSize maxSize : Nat) :
    Except SecErr SectionRes × List Nat :=
  let prefRes : Except SecErr (Nat × List Nat) :=
    match sSize with
    | 2 =>
      if input.length < 2 then .error (.readSize 2)
      else
        let size16 := leNat (input.take 2) % 2 ^ 16
        .ok (size16, uint16Byte size16)
    | 4 =>
      if input.length < 4 then .error (.readSize 4)
      else
        let size32 := leNat (input.take 4) % 2 ^ 32
        .ok (size32, uint32Byte size32)
    | 8 =>
      if input.length < 8 then .error (.readSize 8)
      else
        let size64 := leNat (input.take 8) % 2 ^ 64
        .ok (size64, uint64Byte size64)
    | _ => .error (.invalidSSize sSize)
  match prefRes with
  | .error e =>
    (.error e, if sSize = 2 ∨ sSize = 4 ∨ sSize = 8 then input.drop sSize else input)
  | .ok (sectionSize, data) =>
    let rest := input.drop sSize
    let computedSize := (sectionSize + 2 ^ 64 - sSize) % 2 ^ 64
    if maxSize < computedSize then
      (.error (.invalidComputedSize computedSize maxSize), rest)
    else if rest.length < computedSize then
      (.error (.readSectionBytes computedSize), rest.drop computedSize)
    else
      let tempData := rest.take computedSize
      (.ok ⟨data ++ tempData, tempData, intOfUInt64 sectionSize⟩, rest.drop computedSize)

/-- Model of Go `bytes.IndexByte`: index of the first occurrence of `c` in
`data`, or `-1` when absent. -/
def indexByte : List Nat → Nat → Int
  | [], _ => -1
  | x :: xs, c =>
    if x = c then 0
    else if indexByte xs c = -1 then -1 else indexByte xs c + 1

/-- Model of `readString` (bytes.go): the bytes of `string(data[:i])` where
`i` is the index of the first `0x00`, or `len(data)` when there is none. -/
def readString (data : List Nat) : List Nat :=
  data.take (if indexByte data 0 = -1 then (data.length : Int) else indexByte data 0).toNat

/-- Faithful model of Go `unicode/utf8.DecodeRune`, returning the value of
the decoded rune (`0xFFFD`, `RuneError`, for empty or invalid input).  The
source consults its `first`/`acceptRanges` tables; this definition spells
the same ranges out: ASCII bytes decode to themselves, lead bytes
`0xC2..0xDF`/`0xE0..0xEF`/`0xF0..0xF4` start sequences of 2, 3 or 4 bytes with
the usual continuation ranges (tightened for `0xE0`, `0xED`, `0xF0`, `0xF4`),
everything else - including short input - is `RuneError`. -/
def decodeRune (p : List Nat) : Nat :=
  match p with
  | [] => 0xFFFD
  | p0 :: rest =>
    if p0 < 0x80 then p0
    else if p0 < 0xC2 then 0xFFFD
    else if p0 < 0xE0 then
      match rest with
      | b1 :: _ =>
        if 0x80 ≤ b1 ∧ b1 ≤ 0xBF then ((p0 &&& 0x1F) <<< 6) ||| (b1 &&& 0x3F)
        else 0xFFFD
      | _ => 0xFFFD
    else if p0 < 0xF0 then
      match rest with
      | b1 :: b2 :: _ =>
        let lo := if p0 = 0xE0 then 0xA0 else 0x80
        let hi := if p0 = 0xED then 0x9F else 0xBF
        if (lo ≤ b1 ∧ b1 ≤ hi) ∧ (0x80 ≤ b2 ∧ b2 ≤ 0xBF) then
          ((p0 &&& 0x0F) <<< 12) ||| ((b1 &&& 0x3F) <<< 6) ||| (b2 &&& 0x3F)
        else 0xFFFD
      | _ => 0xFFFD
    else if p0 < 0xF5 then
      match rest with
      | b1 :: b2 :: b3 :: _ =>
        let lo := if p0 = 0xF0 then 0x90 else 0x80
        let hi := if p0 = 0xF4 then 0x8F else 0xBF
        if (lo ≤ b1 ∧ b1 ≤ hi) ∧ (0x80 ≤ b2 ∧ b2 ≤ 0xBF) ∧ (0x80 ≤ b3 ∧ b3 ≤ 0xBF) then
          ((p0 &&& 0x07) <<< 18) ||| ((b1 &&& 0x3F) <<< 12) |||
            ((b2 &&& 0x3F) <<< 6) ||| (b3 &&& 0x3F)
        else 0xFFFD
      | _ => 0xFFFD
    else 0xFFFD

/-- Model of `readUnicodeString` (bytes.go).  The source loops
`bitIndex` from `0` while `bitIndex < len(data)/2`, stopping on an all-zero
pair and otherwise appending the rune `utf8.DecodeRune(data[bitIndex*2:])`;
equivalently, it recurses over the suffixes `data`, `data[2:]`, `data[4:]`,
stopping when fewer than two bytes remain (which ignores an odd trailing
byte as a pair of its own).  Result: the list of decoded rune values. -/
def readUnicodeString (data : List Nat) : List Nat :=
  match data with
  | a :: b :: rest =>
    if a = 0 ∧ b = 0 then []
    else decodeRune (a :: b :: rest) :: readUnicodeString rest
  | _ => []

/-- Index of the first all-zero aligned pair of `data` (counted in pairs),
or `len data / 2` when no such pair exists; the loop of
`readUnicodeString` stops exactly there. -/
def termIdx (data : List Nat) : Nat :=
  match data with
  | a :: b :: rest => if a = 0 ∧ b = 0 then 0 else termIdx rest + 1
  | _ => 0

/-- The aligned byte pair number `i` of `data`, as tested by the zero-pair
check `data[i*2] == 0x00 && data[i*2+1] == 0x00` of the source. -/
def zeroPair (data : List Nat) (i : Nat) : Bool :=
  data.getD (2 * i) 1 == 0 && data.getD (2 * i + 1) 1 == 0

/-- The error values produced by `readStringData` (bytes.go). -/
inductive StrErr where
  /-- message: read size - `err` -/
  | readSize
  /-- message: read bytes - `err` -/
  | readBytes
  /-- message: not enough bytes in reader (the recover branch) -/
  | notEnoughBytes
  deriving Repr, DecidableEq

/-- Model of `toInt32` (bytes.go): `int32(l)<<8 | int32(h)` on two bytes. -/
def toInt32 (h l : Nat) : Nat := (l <<< 8) ||| h

/-- The part of `readStringData` (bytes.go) after the size field has been
read and doubled: `size` content bytes are read from the remaining stream
`rest` (a short stream is a decode error), and for unicode content the
bytes `b` are paired into code points with `toInt32`, reading byte
`b[2i+1]` as 0 when out of range exactly as the source's bounds check
does. -/
def readStringBody (size : Nat) (rest : List Nat) (isUnicode : Bool) :
    Except StrErr (List Nat) × List Nat :=
  if rest.length < size then (.error .readBytes, rest.drop size)
  else if isUnicode then
    (.ok ((List.range (size / 2)).map fun i =>
      if 2 * i + 1 < (rest.take size).length then
        toInt32 ((rest.take size).getD (2 * i) 0) ((rest.take size).getD (2 * i + 1) 0)
      else toInt32 ((rest.take size).getD (2 * i) 0) 0), rest.drop size)
  else (.ok (rest.take size), rest.drop size)

/-- Model of `readStringData` (bytes.go).  Reads a `uint16` size from the
stream, doubles it in `uint16` arithmetic when `isUnicode` (hence the
reduction modulo `2 ^ 16`), then hands over to `readStringBody`.  Returns
the code point list (unicode) or the raw bytes (plain), plus the
unconsumed stream. -/
def readStringData (input : List Nat) (isUnicode : Bool) :
    Except StrErr (List Nat) × List Nat :=
  if input.length < 2 then (.error .readSize, input.drop 2)
  else
    readStringBody
      (if isUnicode then (leNat (input.take 2) % 2 ^ 16) * 2 % 2 ^ 16
       else leNat (input.take 2) % 2 ^ 16)
      (input.drop 2) isUnicode

/- Basic facts about the little-endian helpers. -/

theorem leBytes_length (w u : Nat) : (leBytes w u).length = w := by
  induction w generalizing u with
  | zero => rfl
  | succ w ih => simp [leBytes, ih]

theorem leNat_leBytes (w u : Nat) : leNat (leBytes w u) = u % 2 ^ (8 * w) := by
  induction w generalizing u with
  | zero => simp [leBytes, leNat, Nat.mod_one]
  | succ w ih =>
    have hpow : 2 ^ (8 * (w + 1)) = 256 * 2 ^ (8 * w) := by
      rw [Nat.mul_succ, Nat.pow_add]
      ring
    rw [leBytes, leNat, ih, hpow, Nat.mod_mul]

theorem leNat_leBytes_of_lt {w u : Nat} (h : u < 2 ^ (8 * w)) :
    leNat (leBytes w u) = u := by
  rw [leNat_leBytes, Nat.mod_eq_of_lt h]

theorem leNat_take_leBytes (w v : Nat) (hv : v < 2 ^ (8 * w)) :
    leNat ((leBytes w v).take w) = v := by
  rw [List.take_of_length_le (le_of_eq (leBytes_length w v)), leNat_leBytes_of_lt hv]

/- Bit-extraction helpers for `byteMaskuint16`. -/

theorem and_255_eq_mod (b : Nat) : b &&& 255 = b % 256 := by
  have h := Nat.and_pow_two_sub_one_eq_mod b 8
  norm_num at h
  exact h

theorem and_ff00_shiftRight (b : Nat) (hb : b < 2 ^ 16) :
    (b &&& 65280) >>> 8 = b / 256 := by
  have hdiv : b / 256 = b >>> 8 := by
    rw [Nat.shiftRight_eq_div_pow, show (2 : Nat) ^ 8 = 256 from rfl]
  rw [hdiv]
  apply Nat.eq_of_testBit_eq
  intro i
  rw [Nat.testBit_shiftRight, Nat.testBit_shiftRight, Nat.testBit_and]
  by_cases h : i < 8
  · have ht : Nat.testBit 65280 (8 + i) = true := by
      interval_cases i <;> decide
    simp [ht]
  · have h1 : Nat.testBit b (8 + i) = false :=
      Nat.testBit_lt_two_pow
        (lt_of_lt_of_le hb (Nat.pow_le_pow_right (by norm_num) (by omega)))
    simp [h1]

/-- C9: little-endian encode followed by decode round-trips to the original
value for 16-, 32- and 64-bit unsigned integers. -/
theorem uintLittle_roundtrip :
    (∀ v : Nat, v < 2 ^ 16 → uint16Little (uint16Byte v) = some v)
    ∧ (∀ v : Nat, v < 2 ^ 32 → uint32Little (uint32Byte v) = some v)
    ∧ (∀ v : Nat, v < 2 ^ 64 → uint64Little (uint64Byte v) = some v) := by
  refine ⟨?_, ?_, ?_⟩
  · intro v hv
    rw [uint16Little, uint16Byte, if_neg (by rw [leBytes_length]; omega)]
    exact congrArg some (leNat_take_leBytes 2 v (by omega))
  · intro v hv
    rw [uint32Little, uint32Byte, if_neg (by rw [leBytes_length]; omega)]
    exact congrArg some (leNat_take_leBytes 4 v (by omega))
  · intro v hv
    rw [uint64Little, uint64Byte, if_neg (by rw [leBytes_length]; omega)]
    exact congrArg some (leNat_take_leBytes 8 v (by omega))

/-- C9 witness: the round trip evaluated at 0x1234, 0x12345678 and
0x123456789ABCDEF0. -/
theorem uintLittle_roundtrip_w :
    uint16Little (uint16Byte 4660) = some 4660
    ∧ uint32Little (uint32Byte 305419896) = some 305419896
    ∧ uint64Little (uint64Byte 1311768467463790320) = some 1311768467463790320 :=
  ⟨uintLittle_roundtrip.1 4660 (by norm_num),
   uintLittle_roundtrip.2.1 305419896 (by norm_num),
   uintLittle_roundtrip.2.2 1311768467463790320 (by norm_num)⟩

/-- C5 counterexample: the guard of `byteMaskuint16` is `n < 0 || n > 2`,
so the out-of-range index 2 does not panic; the shifted mask is zero and
the function returns 0, refuting the claim that every index outside
{0, 1} fails fast. -/
theorem byteMaskuint16_cex :
    byteMaskuint16 43981 2 = some 0 ∧ byteMaskuint16 43981 2 ≠ none := by
  refine ⟨by decide, by decide⟩

/-- C5 (amended): `byteMaskuint16` returns the low byte for index 0, the
high byte for index 1, the constant 0 for index 2 (the mask is shifted out
of the 16-bit range), and panics exactly for indices outside {0, 1, 2}. -/
theorem byteMaskuint16_spec (b : Nat) (hb : b < 2 ^ 16) :
    byteMaskuint16 b 0 = some (b % 256)
    ∧ byteMaskuint16 b 1 = some (b / 256)
    ∧ byteMaskuint16 b 2 = some 0
    ∧ ∀ n : Int, (n < 0 ∨ 2 < n) → byteMaskuint16 b n = none := by
  refine ⟨?_, ?_, ?_, ?_⟩
  · rw [byteMaskuint16, if_neg (by norm_num)]
    norm_num
    exact and_255_eq_mod b
  · rw [byteMaskuint16, if_neg (by norm_num)]
    norm_num
    exact and_ff00_shiftRight b hb
  · rw [byteMaskuint16, if_neg (by norm_num)]
    have h2 : ((2 : Int).toNat * 8) = 16 := rfl
    rw [h2]
    have hm : (255 <<< 16) % 2 ^ 16 = 0 := by decide
    rw [hm]
    simp
  · intro n hn
    rw [byteMaskuint16, if_pos hn]

/-- C5 witness: the amended theorem evaluated at 0xABCD with indices
0, 1, 2 and the genuinely rejected index 3. -/
theorem byteMaskuint16_spec_w :
    byteMaskuint16 43981 0 = some 205
    ∧ byteMaskuint16 43981 1 = some 171
    ∧ byteMaskuint16 43981 2 = some 0
    ∧ byteMaskuint16 43981 3 = none := by
  have h := byteMaskuint16_spec 43981 (by norm_num)
  exact ⟨h.1, h.2.1, h.2.2.1, h.2.2.2 3 (by norm_num)⟩

/-- C6: for non-negative arguments, `ReadBytes` clamps instead of failing:
an offset at or past the end yields an empty slice with count 0; an
in-bounds offset whose requested count overruns the end yields exactly the
bytes from the offset to the end with the remaining count; otherwise it
yields exactly `num` bytes starting at the offset with count `num`.  In
every case the returned bytes are a prefix of `b.drop offset`, hence never
extend past the end of `b`. -/
theorem ReadBytes_spec (b : List Nat) (offset num : Int)
    (h0 : 0 ≤ offset) (h1 : 0 ≤ num) :
    ((b.length : Int) ≤ offset → ReadBytes b offset num = some ([], 0))
    ∧ (offset < (b.length : Int) → (b.length : Int) < offset + num →
        ReadBytes b offset num = some (b.drop offset.toNat, (b.length : Int) - offset))
    ∧ (offset < (b.length : Int) → offset + num ≤ (b.length : Int) →
        ReadBytes b offset num = some ((b.drop offset.toNat).take num.toNat, num)) := by
  obtain ⟨k, rfl⟩ : ∃ k : Nat, offset = (k : Int) := ⟨offset.toNat, (Int.toNat_of_nonneg h0).symm⟩
  obtain ⟨m, rfl⟩ : ∃ m : Nat, num = (m : Int) := ⟨num.toNat, (Int.toNat_of_nonneg h1).symm⟩
  refine ⟨?_, ?_, ?_⟩
  · intro h
    rw [ReadBytes, if_pos h]
  · intro hlt hgt
    rw [ReadBytes, if_neg (by omega), if_pos (by omega),
      goSlice, if_pos ⟨by omega, by omega, by omega⟩, Option.map_some']
    have hk : ((k : Int)).toNat = k := Int.toNat_natCast k
    have hsub : (((b.length : Int)) - (k : Int)).toNat = b.length - k := Int.toNat_sub _ _
    rw [hk, hsub, List.take_of_length_le (by rw [List.length_drop])]
    have hlen : ((b.drop k).length : Int) = (b.length : Int) - (k : Int) := by
      rw [List.length_drop]
      omega
    rw [hlen]
  · intro hlt hle
    by_cases heq : (b.length : Int) ≤ (k : Int) + (m : Int)
    · have hmk : b.length = k + m := by push_cast at heq hle ⊢; omega
      rw [ReadBytes, if_neg (by omega), if_pos heq,
        goSlice, if_pos ⟨by omega, by omega, by omega⟩, Option.map_some']
      have hk : ((k : Int)).toNat = k := Int.toNat_natCast k
      have hsub : (((b.length : Int)) - (k : Int)).toNat = b.length - k := Int.toNat_sub _ _
      rw [hk, hsub, List.take_of_length_le (by rw [List.length_drop])]
      have hdl : (b.drop k).length = m := by rw [List.length_drop]; omega
      rw [List.take_of_length_le (by rw [hdl]; simp), hdl]
    · rw [ReadBytes, if_neg (by omega), if_neg heq,
        goSlice, if_pos ⟨by omega, by omega, by omega⟩, Option.map_some']
      have hk : ((k : Int)).toNat = k := Int.toNat_natCast k
      have hadd : ((k : Int) + (m : Int) - (k : Int)).toNat = m := by
        rw [show (k : Int) + (m : Int) - (k : Int) = (m : Int) by ring, Int.toNat_natCast]
      rw [hk, hadd, Int.toNat_natCast]

/-- C6 witness: the two spec examples, a 10-byte buffer read at offset 10
(empty result, count 0) and at offset 5 with count 100 (the 5 remaining
bytes, count 5). -/
theorem ReadBytes_spec_w :
    ReadBytes [1, 2, 3, 4, 5, 6, 7, 8, 9, 10] 10 0 = some ([], 0)
    ∧ ReadBytes [1, 2, 3, 4, 5, 6, 7, 8, 9, 10] 5 100 = some ([6, 7, 8, 9, 10], 5) := by
  constructor
  · exact (ReadBytes_spec [1, 2, 3, 4, 5, 6, 7, 8, 9, 10] 10 0 (by norm_num)
      (by norm_num)).1 (by norm_num)
  · have h := (ReadBytes_spec [1, 2, 3, 4, 5, 6, 7, 8, 9, 10] 5 100 (by norm_num)
      (by norm_num)).2.1 (by norm_num) (by norm_num)
    simpa using h

/-- C10: the clamp guarantee of `ReadBytes` needs non-negative arguments:
a negative offset on a non-empty buffer, or an in-bounds offset with a
negative count, reaches a slice expression with an illegal bound and
panics. -/
theorem ReadBytes_neg_panics :
    ReadBytes [1, 2, 3, 4, 5, 6, 7, 8, 9, 10] (-1) 3 = none
    ∧ ReadBytes [1, 2, 3, 4, 5, 6, 7, 8, 9, 10] 2 (-1) = none := by
  refine ⟨by decide, by decide⟩

/- Helpers for `readString`. -/

theorem indexByte_neg_one_le : ∀ (data : List Nat) (c : Nat), -1 ≤ indexByte data c
  | [], _ => by simp [indexByte]
  | x :: xs, c => by
    rw [indexByte]
    by_cases hx : x = c
    · simp [hx]
    · have h := indexByte_neg_one_le xs c
      by_cases hr : indexByte xs c = -1
      · simp [hx, hr]
      · simp [hx, hr]
        omega

theorem readString_eq_takeWhile :
    ∀ data : List Nat, readString data = data.takeWhile (fun x => x != 0)
  | [] => rfl
  | x :: xs => by
    have ih := readString_eq_takeWhile xs
    by_cases hx : x = 0
    · subst hx
      simp [readString, indexByte, List.takeWhile_cons]
    · rw [List.takeWhile_cons]
      have hxne : (x != 0) = true := by simp [hx]
      rw [hxne, if_pos rfl, ← ih]
      by_cases hr : indexByte xs 0 = -1
      · rw [readString, readString, indexByte, if_neg hx, if_pos hr, if_pos hr]
        simp
      · have hge : 0 ≤ indexByte xs 0 := by
          have := indexByte_neg_one_le xs 0
          omega
        rw [readString, readString, indexByte, if_neg hx, if_neg hr, if_neg hr]
        have h1 : ¬(indexByte xs 0 + 1 = -1) := by omega
        rw [if_neg h1]
        have h2 : (indexByte xs 0 + 1).toNat = (indexByte xs 0).toNat + 1 := by omega
        rw [h2, List.take_succ_cons]

theorem takeWhile_ne_zero_of_not_mem :
    ∀ l : List Nat, (0 : Nat) ∉ l → l.takeWhile (fun x => x != 0) = l
  | [], _ => rfl
  | x :: xs, h => by
    have hx : x ≠ 0 := fun hc => h (hc ▸ List.mem_cons_self x xs)
    have hxs : (0 : Nat) ∉ xs := fun hc => h (List.mem_cons_of_mem x hc)
    have hb : (x != 0) = true := by simp [hx]
    rw [List.takeWhile_cons, hb, if_pos rfl, takeWhile_ne_zero_of_not_mem xs hxs]

theorem takeWhile_ne_zero_append :
    ∀ (pre suf : List Nat), (0 : Nat) ∉ pre →
      (pre ++ 0 :: suf).takeWhile (fun x => x != 0) = pre
  | [], suf, _ => by simp [List.takeWhile]
  | x :: pre, suf, h => by
    have hx : x ≠ 0 := fun hc => h (hc ▸ List.mem_cons_self x pre)
    have hpre : (0 : Nat) ∉ pre := fun hc => h (List.mem_cons_of_mem x hc)
    have hb : (x != 0) = true := by simp [hx]
    rw [List.cons_append, List.takeWhile_cons, hb, if_pos rfl,
      takeWhile_ne_zero_append pre suf hpre]

/-- C8: `readString` returns exactly the bytes strictly before the first
zero byte (the first conjunct states this as a `takeWhile`, the third names
the zero-free prefix explicitly), returns the whole buffer when no zero
byte occurs, and is total (it is a Lean function), hence never fails. -/
theorem readString_spec (data : List Nat) :
    readString data = data.takeWhile (fun x => x != 0)
    ∧ ((0 : Nat) ∉ data → readString data = data)
    ∧ (∀ pre suf : List Nat, data = pre ++ 0 :: suf → (0 : Nat) ∉ pre →
        readString data = pre) := by
  refine ⟨readString_eq_takeWhile data, ?_, ?_⟩
  · intro h
    rw [readString_eq_takeWhile data, takeWhile_ne_zero_of_not_mem data h]
  · intro pre suf hdata hpre
    rw [readString_eq_takeWhile data, hdata, takeWhile_ne_zero_append pre suf hpre]

/-- C8 witness: the spec example `{0x41, 0x42, 0x00, 0x43}` yields "AB",
and an input with no zero byte yields the whole input. -/
theorem readString_spec_w :
    readString [65, 66, 0, 67] = [65, 66] ∧ readString [65, 66, 67] = [65, 66, 67] := by
  constructor
  · exact (readString_spec [65, 66, 0, 67]).2.2 [65, 66] [67] (by decide) (by decide)
  · exact (readString_spec [65, 66, 67]).2.1 (by decide)

/-- C4 counterexample: with the double-byte flag set, the declared length
0x8000 is doubled in `uint16` arithmetic, which wraps to 0, so
`readStringData` reads no content bytes at all and succeeds on a stream
with nothing after the length field - the claim predicts an attempt to
read 65536 bytes and a decode error on this stream. -/
theorem readStringData_cex :
    readStringData [0, 128] true = (.ok [], []) := rfl

/-- C4 (amended): with the double-byte flag set, the number of content
bytes `readStringData` reads after the 2-byte length field is exactly
`L * 2 % 2 ^ 16` (which is `2 * L` whenever `L < 2 ^ 15`): a stream
offering fewer remaining bytes yields a decode error, and one offering at
least that many succeeds and consumes exactly that many content bytes. -/
theorem readStringData_unicode_spec (L : Nat) (rest : List Nat) (hL : L < 2 ^ 16) :
    (rest.length < L * 2 % 2 ^ 16 →
      (readStringData (leBytes 2 L ++ rest) true).1 = .error .readBytes)
    ∧ (L * 2 % 2 ^ 16 ≤ rest.length →
      (readStringData (leBytes 2 L ++ rest) true).1.isOk = true
        ∧ (readStringData (leBytes 2 L ++ rest) true).2 = rest.drop (L * 2 % 2 ^ 16)) := by
  have hlen : (leBytes 2 L ++ rest).length = 2 + rest.length := by
    simp [leBytes_length]
  have htake : (leBytes 2 L ++ rest).take 2 = leBytes 2 L := List.take_left' (leBytes_length 2 L)
  have hdrop : (leBytes 2 L ++ rest).drop 2 = rest := List.drop_left' (leBytes_length 2 L)
  have hsz : leNat ((leBytes 2 L ++ rest).take 2) % 2 ^ 16 = L := by
    rw [htake, leNat_leBytes]
    norm_num
    omega
  constructor
  · intro hshort
    rw [readStringData, if_neg (by omega), hsz, hdrop, readStringBody]
    simp only [eq_self_iff_true, if_true]
    rw [if_pos hshort]
  · intro hlong
    rw [readStringData, if_neg (by omega), hsz, hdrop, readStringBody]
    simp only [eq_self_iff_true, if_true]
    rw [if_neg (by omega)]
    exact ⟨rfl, rfl⟩

/-- C4 witness: length 3 with the double-byte flag expects 6 content
bytes - 5 available is a decode error, 6 available succeeds. -/
theorem readStringData_unicode_spec_w :
    (readStringData (leBytes 2 3 ++ [1, 2, 3, 4, 5]) true).1 = .error .readBytes
    ∧ (readStringData (leBytes 2 3 ++ [1, 2, 3, 4, 5, 6]) true).1.isOk = true := by
  constructor
  · exact (readStringData_unicode_spec 3 [1, 2, 3, 4, 5] (by norm_num)).1 (by norm_num)
  · exact ((readStringData_unicode_spec 3 [1, 2, 3, 4, 5, 6] (by norm_num)).2 (by norm_num)).1

/- The behaviour of `readSection` on a stream whose size prefix is well
formed.  `readSection_ok_aux` is the general success lemma: whenever a
size-prefix of width `sSize` decoding to `s` is followed by at least
`(s + 2 ^ 64 - sSize) % 2 ^ 64` payload bytes (the `uint64` computation of
the source) and that computed size is within the ceiling, the call
succeeds.  `readSection_err_aux` is the general ceiling-rejection lemma. -/

theorem readSection_ok_aux (sSize s maxSize : Nat) (rest : List Nat)
    (hw : sSize = 2 ∨ sSize = 4 ∨ sSize = 8)
    (hs : s < 2 ^ (8 * sSize))
    (hmax : (s + 2 ^ 64 - sSize) % 2 ^ 64 ≤ maxSize)
    (hlen : (s + 2 ^ 64 - sSize) % 2 ^ 64 ≤ rest.length) :
    readSection (leBytes sSize s ++ rest) sSize maxSize =
      (.ok ⟨leBytes sSize s ++ rest.take ((s + 2 ^ 64 - sSize) % 2 ^ 64),
            rest.take ((s + 2 ^ 64 - sSize) % 2 ^ 64),
            intOfUInt64 s⟩,
       rest.drop ((s + 2 ^ 64 - sSize) % 2 ^ 64)) := by
  have hsz := leBytes_length sSize s
  have hlenapp : (leBytes sSize s ++ rest).length = sSize + rest.length := by
    rw [List.length_append, hsz]
  have htake : (leBytes sSize s ++ rest).take sSize = leBytes sSize s :=
    List.take_left' hsz
  have hdrop : (leBytes sSize s ++ rest).drop sSize = rest :=
    List.drop_left' hsz
  rcases hw with rfl | rfl | rfl
  · have hval : leNat ((leBytes 2 s ++ rest).take 2) % 2 ^ 16 = s := by
      rw [htake, leNat_leBytes]; omega
    simp only [readSection, uint16Byte]
    rw [if_neg (by omega), hval, hdrop]
    dsimp only
    rw [if_neg (Nat.not_lt.mpr hmax), if_neg (Nat.not_lt.mpr hlen)]
  · have hval : leNat ((leBytes 4 s ++ rest).take 4) % 2 ^ 32 = s := by
      rw [htake, leNat_leBytes]; omega
    simp only [readSection, uint32Byte]
    rw [if_neg (by omega), hval, hdrop]
    dsimp only
    rw [if_neg (Nat.not_lt.mpr hmax), if_neg (Nat.not_lt.mpr hlen)]
  · have hval : leNat ((leBytes 8 s ++ rest).take 8) % 2 ^ 64 = s := by
      rw [htake, leNat_leBytes]; omega
    simp only [readSection, uint64Byte]
    rw [if_neg (by omega), hval, hdrop]
    dsimp only
    rw [if_neg (Nat.not_lt.mpr hmax), if_neg (Nat.not_lt.mpr hlen)]

theorem readSection_err_aux (sSize s maxSize : Nat) (rest : List Nat)
    (hw : sSize = 2 ∨ sSize = 4 ∨ sSize = 8)
    (hs : s < 2 ^ (8 * sSize))
    (hbig : maxSize < (s + 2 ^ 64 - sSize) % 2 ^ 64) :
    readSection (leBytes sSize s ++ rest) sSize maxSize =
      (.error (.invalidComputedSize ((s + 2 ^ 64 - sSize) % 2 ^ 64) maxSize), rest) := by
  have hsz := leBytes_length sSize s
  have hlenapp : (leBytes sSize s ++ rest).length = sSize + rest.length := by
    rw [List.length_append, hsz]
  have htake : (leBytes sSize s ++ rest).take sSize = leBytes sSize s :=
    List.take_left' hsz
  have hdrop : (leBytes sSize s ++ rest).drop sSize = rest :=
    List.drop_left' hsz
  rcases hw with rfl | rfl | rfl
  · have hval : leNat ((leBytes 2 s ++ rest).take 2) % 2 ^ 16 = s := by
      rw [htake, leNat_leBytes]; omega
    simp only [readSection, uint16Byte]
    rw [if_neg (by omega), hval, hdrop]
    dsimp only
    rw [if_pos hbig]
  · have hval : leNat ((leBytes 4 s ++ rest).take 4) % 2 ^ 32 = s := by
      rw [htake, leNat_leBytes]; omega
    simp only [readSection, uint32Byte]
    rw [if_neg (by omega), hval, hdrop]
    dsimp only
    rw [if_pos hbig]
  · have hval : leNat ((leBytes 8 s ++ rest).take 8) % 2 ^ 64 = s := by
      rw [htake, leNat_leBytes]; omega
    simp only [readSection, uint64Byte]
    rw [if_neg (by omega), hval, hdrop]
    dsimp only
    rw [if_pos hbig]

/-- C1 counterexample: for `prefixWidth = 8` and a declared size of
`2 ^ 63` (followed by the required `2 ^ 63 - 8` payload bytes, ceiling
`2 ^ 64 - 1`), `readSection` succeeds but the returned size integer is the
Go conversion `int(2 ^ 63) = -2 ^ 63`, not the declared total size, so the
claim's "declared total size as the returned size integer" fails. -/
theorem readSection_size_cex :
    readSection (leBytes 8 (2 ^ 63) ++ List.replicate (2 ^ 63 - 8) 0) 8 (2 ^ 64 - 1) =
      (.ok ⟨leBytes 8 (2 ^ 63) ++ List.replicate (2 ^ 63 - 8) 0,
            List.replicate (2 ^ 63 - 8) 0, -(2 ^ 63 : Int)⟩, [])
    ∧ (-(2 ^ 63 : Int)) ≠ ((2 ^ 63 : Nat) : Int) := by
  constructor
  · have h := readSection_ok_aux 8 (2 ^ 63) (2 ^ 64 - 1) (List.replicate (2 ^ 63 - 8) 0)
      (by norm_num) (by norm_num) (by norm_num)
      (by rw [List.length_replicate]; norm_num)
    have hc : ((2 : Nat) ^ 63 + 2 ^ 64 - 8) % 2 ^ 64 = 2 ^ 63 - 8 := by norm_num
    rw [hc] at h
    rw [h, List.take_replicate, List.drop_replicate, Nat.min_self, Nat.sub_self,
      List.replicate_zero]
    have hi : intOfUInt64 (2 ^ 63) = -(2 ^ 63 : Int) := by
      rw [intOfUInt64, if_neg (by norm_num)]
      push_cast
    rw [hi]
  · norm_num

/-- C1 (amended): for every prefix width in {2, 4, 8}, ceiling, and input
stream holding a full prefix declaring `s ≥ prefixWidth` followed by at
least `s - prefixWidth` payload bytes with `s - prefixWidth` within the
ceiling, `readSection` succeeds and returns the prefix bytes followed by
exactly `s - prefixWidth` payload bytes as the raw data, a fresh reader
holding exactly those payload bytes, and the declared size converted to a
signed 64-bit integer (equal to the declared size whenever `s < 2 ^ 63`)
as the returned size. -/
theorem readSection_success (sSize s maxSize : Nat) (rest : List Nat)
    (hw : sSize = 2 ∨ sSize = 4 ∨ sSize = 8)
    (hs : s < 2 ^ (8 * sSize))
    (hge : sSize ≤ s)
    (hmax : s - sSize ≤ maxSize)
    (hlen : s - sSize ≤ rest.length) :
    readSection (leBytes sSize s ++ rest) sSize maxSize =
      (.ok ⟨leBytes sSize s ++ rest.take (s - sSize), rest.take (s - sSize),
            intOfUInt64 s⟩,
       rest.drop (s - sSize)) := by
  have h8 : sSize ≤ 8 := by rcases hw with rfl | rfl | rfl <;> norm_num
  have hs64 : s < 2 ^ 64 := by
    have : (2 : Nat) ^ (8 * sSize) ≤ 2 ^ 64 :=
      Nat.pow_le_pow_right (by norm_num) (by omega)
    omega
  have hc : (s + 2 ^ 64 - sSize) % 2 ^ 64 = s - sSize := by omega
  have h := readSection_ok_aux sSize s maxSize rest hw hs (by omega) (by omega)
  rw [hc] at h
  exact h

/-- C1 witness: the spec example - prefix width 4, declared size 12,
8 payload bytes available, ceiling 100. -/
theorem readSection_success_w :
    readSection [12, 0, 0, 0, 1, 2, 3, 4, 5, 6, 7, 8, 9] 4 100 =
      (.ok ⟨[12, 0, 0, 0, 1, 2, 3, 4, 5, 6, 7, 8], [1, 2, 3, 4, 5, 6, 7, 8], 12⟩, [9]) := by
  have h := readSection_success 4 12 100 [1, 2, 3, 4, 5, 6, 7, 8, 9]
    (by norm_num) (by norm_num) (by norm_num) (by norm_num) (by norm_num)
  simpa [leBytes] using h

/-- C2 counterexample: with a declared size of 1 (smaller than the prefix
width 2) and the ceiling `2 ^ 64 - 1`, the wrapped computed size
`2 ^ 64 - 1` passes the ceiling check, and on a (gigantic) stream holding
that many payload bytes `readSection` succeeds - so for this ceiling an
underflowed declared size is not a decode error, refuting the claim's
"for every ceiling". -/
theorem readSection_underflow_cex :
    readSection (leBytes 2 1 ++ List.replicate (2 ^ 64 - 1) 0) 2 (2 ^ 64 - 1) =
      (.ok ⟨leBytes 2 1 ++ List.replicate (2 ^ 64 - 1) 0,
            List.replicate (2 ^ 64 - 1) 0, 1⟩, [])
    ∧ (1 : Nat) < 2 := by
  constructor
  · have h := readSection_ok_aux 2 1 (2 ^ 64 - 1) (List.replicate (2 ^ 64 - 1) 0)
      (by norm_num) (by norm_num) (by norm_num)
      (by rw [List.length_replicate]; norm_num)
    have hc : ((1 : Nat) + 2 ^ 64 - 2) % 2 ^ 64 = 2 ^ 64 - 1 := by norm_num
    rw [hc] at h
    rw [h, List.take_replicate, List.drop_replicate, Nat.min_self, Nat.sub_self,
      List.replicate_zero]
    have hi : intOfUInt64 1 = 1 := by
      rw [intOfUInt64, if_pos (by norm_num)]
      norm_num
    rw [hi]
  · norm_num

/-- C2 (amended): for every prefix width in {2, 4, 8} and every ceiling
smaller than `2 ^ 64 - prefixWidth` (every ceiling for which the wrapped
computed size cannot pass the check), a declared size smaller than the
prefix width underflows the `uint64` subtraction and `readSection` returns
the ceiling-violation decode error, never a successful result. -/
theorem readSection_underflow_spec (sSize s maxSize : Nat) (rest : List Nat)
    (hw : sSize = 2 ∨ sSize = 4 ∨ sSize = 8)
    (hs : s < sSize)
    (hmax : maxSize < 2 ^ 64 - sSize) :
    readSection (leBytes sSize s ++ rest) sSize maxSize =
      (.error (.invalidComputedSize (s + 2 ^ 64 - sSize) maxSize), rest) := by
  have h8 : sSize ≤ 8 := by rcases hw with rfl | rfl | rfl <;> norm_num
  have hc : (s + 2 ^ 64 - sSize) % 2 ^ 64 = s + 2 ^ 64 - sSize := by omega
  have h := readSection_err_aux sSize s maxSize rest hw
    (by
      have : (2 : Nat) ^ 16 ≤ 2 ^ (8 * sSize) := by
        apply Nat.pow_le_pow_right (by norm_num)
        rcases hw with rfl | rfl | rfl <;> norm_num
      omega)
    (by omega)
  rw [hc] at h
  exact h

/-- C2 witness: prefix width 2, declared size 1, ceiling 5: the
underflowed computed size `2 ^ 64 - 1` is rejected as a decode error. -/
theorem readSection_underflow_spec_w :
    readSection [1, 0] 2 5 =
      (.error (.invalidComputedSize (1 + 2 ^ 64 - 2) 5), []) := by
  have h := readSection_underflow_spec 2 1 5 [] (by norm_num) (by norm_num) (by norm_num)
  simpa [leBytes] using h

/-- C3: whenever the computed payload size `s - prefixWidth` strictly
exceeds the ceiling, `readSection` fails with the decode error carrying
both the computed size and the ceiling (the two integers interpolated into
its message), and the remaining stream is exactly the bytes after the
prefix - nothing beyond the prefix is consumed. -/
theorem readSection_too_large (sSize s maxSize : Nat) (rest : List Nat)
    (hw : sSize = 2 ∨ sSize = 4 ∨ sSize = 8)
    (hs : s < 2 ^ (8 * sSize))
    (hge : sSize ≤ s)
    (hbig : maxSize < s - sSize) :
    readSection (leBytes sSize s ++ rest) sSize maxSize =
      (.error (.invalidComputedSize (s - sSize) maxSize), rest) := by
  have h8 : sSize ≤ 8 := by rcases hw with rfl | rfl | rfl <;> norm_num
  have hs64 : s < 2 ^ 64 := by
    have : (2 : Nat) ^ (8 * sSize) ≤ 2 ^ 64 :=
      Nat.pow_le_pow_right (by norm_num) (by omega)
    omega
  have hc : (s + 2 ^ 64 - sSize) % 2 ^ 64 = s - sSize := by omega
  have h := readSection_err_aux sSize s maxSize rest hw hs (by omega)
  rw [hc] at h
  exact h

/-- C3 witness: prefix width 2, declared size 100 (computed payload 98),
ceiling 10: the error names 98 and 10, and the three bytes after the
prefix are left unconsumed. -/
theorem readSection_too_large_w :
    readSection [100, 0, 1, 2, 3] 2 10 =
      (.error (.invalidComputedSize 98 10), [1, 2, 3]) := by
  have h := readSection_too_large 2 100 10 [1, 2, 3]
    (by norm_num) (by norm_num) (by norm_num) (by norm_num)
  simpa [leBytes] using h

/- Helpers for the characterization of `readUnicodeString`. -/

theorem and_beq_false {a b : Nat} (h : ¬(a = 0 ∧ b = 0)) :
    (a == 0 && b == 0) = false := by
  by_cases ha : a = 0
  · by_cases hb : b = 0
    · exact absurd ⟨ha, hb⟩ h
    · simp [ha, hb]
  · simp [ha]

theorem zeroPair_head (a b : Nat) (rest : List Nat) :
    zeroPair (a :: b :: rest) 0 = (a == 0 && b == 0) := by
  simp [zeroPair]

theorem zeroPair_cons_cons (a b : Nat) (rest : List Nat) (j : Nat) :
    zeroPair (a :: b :: rest) (j + 1) = zeroPair rest j := by
  rw [zeroPair, zeroPair, show 2 * (j + 1) = 2 * j + 1 + 1 from by ring]
  simp only [List.getD_cons_succ]

theorem termIdx_le : ∀ data : List Nat, termIdx data ≤ data.length / 2
  | [] => by simp [termIdx]
  | [a] => by simp [termIdx]
  | a :: b :: rest => by
    rw [termIdx]
    by_cases h : a = 0 ∧ b = 0
    · rw [if_pos h]
      omega
    · rw [if_neg h]
      have ih := termIdx_le rest
      simp only [List.length_cons]
      omega

theorem termIdx_not_zeroPair :
    ∀ (data : List Nat) (j : Nat), j < termIdx data → zeroPair data j = false
  | [], j, hj => by simp [termIdx] at hj
  | [a], j, hj => by simp [termIdx] at hj
  | a :: b :: rest, j, hj => by
    rw [termIdx] at hj
    by_cases h : a = 0 ∧ b = 0
    · rw [if_pos h] at hj
      omega
    · rw [if_neg h] at hj
      cases j with
      | zero => rw [zeroPair_head]; exact and_beq_false h
      | succ j =>
        rw [zeroPair_cons_cons]
        exact termIdx_not_zeroPair rest j (by omega)

theorem termIdx_zeroPair :
    ∀ data : List Nat, termIdx data < data.length / 2 →
      zeroPair data (termIdx data) = true
  | [] => by simp [termIdx]
  | [a] => by simp [termIdx]
  | a :: b :: rest => by
    rw [termIdx]
    by_cases h : a = 0 ∧ b = 0
    · rw [if_pos h]
      intro _
      rw [zeroPair_head, h.1, h.2]
      simp
    · rw [if_neg h]
      intro hlt
      rw [zeroPair_cons_cons]
      apply termIdx_zeroPair rest
      simp only [List.length_cons] at hlt
      omega

theorem readUnicodeString_char :
    ∀ data : List Nat,
      readUnicodeString data =
        (List.range (termIdx data)).map fun j => decodeRune (data.drop (2 * j))
  | [] => by simp [readUnicodeString, termIdx]
  | [a] => by simp [readUnicodeString, termIdx]
  | a :: b :: rest => by
    rw [readUnicodeString, termIdx]
    by_cases h : a = 0 ∧ b = 0
    · rw [if_pos h, if_pos h]
      rfl
    · rw [if_neg h, if_neg h, readUnicodeString_char rest, List.range_succ_eq_map,
        List.map_cons, List.map_map]
      congr 1

/-- C7 counterexample: the odd trailing byte is not ignored.  On
`[0xE2, 0x82, 0xAC]` (one aligned pair plus the trailing byte 0xAC) the
single pair is decoded by UTF-8 rules applied to the whole suffix, giving
U+20AC, while the same buffer without the trailing byte gives U+FFFD - the
trailing byte changes the decoded output. -/
theorem readUnicodeString_cex :
    readUnicodeString [0xE2, 0x82, 0xAC] = [0x20AC]
    ∧ readUnicodeString [0xE2, 0x82] = [0xFFFD]
    ∧ readUnicodeString [0xE2, 0x82, 0xAC] ≠ readUnicodeString [0xE2, 0x82] := by
  refine ⟨by decide, by decide, by decide⟩

/-- C7 (amended): `readUnicodeString` scans pair-aligned two-byte units,
stops at the first all-zero pair (returning the code points accumulated so
far), emits exactly one code point per non-terminator pair - so it never
fails and an odd trailing byte never produces a code point of its own -
but the code point of each pair is `utf8.DecodeRune` applied to the whole
byte suffix starting at that pair, so a trailing byte can influence the
value of the last code point.  `termIdx` is the index of the first
all-zero pair (or `length / 2` when there is none). -/
theorem readUnicodeString_spec (data : List Nat) :
    readUnicodeString data =
      ((List.range (termIdx data)).map fun j => decodeRune (data.drop (2 * j)))
    ∧ (readUnicodeString data).length = termIdx data
    ∧ termIdx data ≤ data.length / 2
    ∧ (∀ j, j < termIdx data → zeroPair data j = false)
    ∧ (termIdx data < data.length / 2 → zeroPair data (termIdx data) = true) := by
  refine ⟨readUnicodeString_char data, ?_, termIdx_le data,
    termIdx_not_zeroPair data, termIdx_zeroPair data⟩
  rw [readUnicodeString_char data]
  simp

/-- C7 witness: the spec example - little-endian pairs for "AB" followed
by a zero pair and further bytes decode to exactly "AB"; the zero pair at
pair index 2 stops the scan. -/
theorem readUnicodeString_spec_w :
    readUnicodeString [65, 0, 66, 0, 0, 0, 67, 0] = [65, 66]
    ∧ zeroPair [65, 0, 66, 0, 0, 0, 67, 0] 1 = false
    ∧ zeroPair [65, 0, 66, 0, 0, 0, 67, 0] 2 = true := by
  have h := readUnicodeString_spec [65, 0, 66, 0, 0, 0, 67, 0]
  refine ⟨by decide, h.2.2.2.1 1 (by decide), h.2.2.2.2 (by decide)⟩

end Golnk
